import Mathlib

/-!
Verification of the dictionary term-matching core of `whisperly_api`
(`src/services/dictionaryCache.ts`).

Strings are modelled as `List Char` (`Str`); offsets are character indices.
JavaScript's `String.prototype.toLowerCase` is modelled for the ASCII range
(the range exercised by every claim); `\b` word boundaries use the JS word
class `[A-Za-z0-9_]`.  JS `Map`s are modelled as association lists with
unique keys: `mapSet` overwrites in place (preserving insertion order,
exactly as `Map.set` does) and `mapGet` is `Map.get`.
-/

namespace Whisperly

/-- A JS string, modelled as a list of characters. -/
abbrev Str := List Char

/-- ASCII model of the lowercasing JS applies via `toLowerCase()`. -/
def toLowerChar (c : Char) : Char :=
  match c with
  | 'A' => 'a' | 'B' => 'b' | 'C' => 'c' | 'D' => 'd' | 'E' => 'e'
  | 'F' => 'f' | 'G' => 'g' | 'H' => 'h' | 'I' => 'i' | 'J' => 'j'
  | 'K' => 'k' | 'L' => 'l' | 'M' => 'm' | 'N' => 'n' | 'O' => 'o'
  | 'P' => 'p' | 'Q' => 'q' | 'R' => 'r' | 'S' => 's' | 'T' => 't'
  | 'U' => 'u' | 'V' => 'v' | 'W' => 'w' | 'X' => 'x' | 'Y' => 'y'
  | 'Z' => 'z'
  | c => c

/-- `s.toLowerCase()` on a whole string. -/
def toLowerStr (s : Str) : Str := s.map toLowerChar

/-- The JS regex word class `\w`, i.e. `[A-Za-z0-9_]`. -/
def isWordChar (c : Char) : Bool :=
  ('a' ≤ c && c ≤ 'z') || ('A' ≤ c && c ≤ 'Z') || ('0' ≤ c && c ≤ '9') || c == '_'

/-- Whether the character at index `i` of `text` is a word character
(out-of-range counts as non-word, like the virtual edges of a JS string). -/
def wordAt (text : Str) (i : Nat) : Bool :=
  match text[i]? with
  | some c => isWordChar c
  | none => false

/-- JS `\b`: position `p` lies between a word and a non-word character
(string edges count as non-word). -/
def boundaryAt (text : Str) (p : Nat) : Bool :=
  (if p = 0 then false else wordAt text (p - 1)) != wordAt text p

/-- Boolean list-prefix test (used to model literal substring matching). -/
def isPrefixOfStr : Str → Str → Bool
  | [], _ => true
  | _ :: _, [] => false
  | a :: as, b :: bs => a == b && isPrefixOfStr as bs

/-- JS `String.prototype.indexOf`: index of the leftmost occurrence of
`pat` in `hay`, or `none` when absent. -/
def indexOfStr (hay pat : Str) : Option Nat :=
  (List.range (hay.length + 1)).find? (fun p => isPrefixOfStr pat (hay.drop p))

/-- The character class `[.*+?^${}()|[\]\\]` of `escapeRegex`. -/
def isRegexSpecial (c : Char) : Bool :=
  c == '.' || c == '*' || c == '+' || c == '?' || c == '^' || c == '$' ||
  c == '\x7b' || c == '\x7d' || c == '(' || c == ')' || c == '|' ||
  c == '[' || c == ']' || c == '\\'

/-- `escapeRegex`: `str.replace(/[.*+?^$\x7b\x7d()|[\]\\]/g, "\\$&")` —
prefix every regex-special character with a backslash. -/
def escapeRegex : Str → Str
  | [] => []
  | c :: rest =>
    if isRegexSpecial c then '\\' :: c :: escapeRegex rest
    else c :: escapeRegex rest

/-- Model of the pattern engine reading an escaped pattern as a literal:
`\\c` denotes the character `c`; a bare special character is not a literal
(it would carry regex meaning), so the read fails on it. -/
def parseLiteral : Str → Option Str
  | [] => some []
  | c :: rest =>
    if c = '\\' then
      match rest with
      | [] => none
      | d :: rest2 => (parseLiteral rest2).map (fun s => d :: s)
    else if isRegexSpecial c then none
    else (parseLiteral rest).map (fun s => c :: s)

/-- One row returned by the Dictionary Store query in `loadProjectCache`. -/
structure EntryRow where
  dictionary_id : Str
  language_code : Str
  text : Str
deriving DecidableEq

/-- `ProjectDictionaryCache` (the Term Index). -/
structure ProjectDictionaryCache where
  /-- dictionary_id -> language_code -> text -/
  dictionary_map : List (Str × List (Str × Str))
  /-- lowercase_text -> dictionary_id -/
  text_map : List (Str × Str)
  /-- Terms sorted by length (longest first) for matching -/
  terms_sorted : List Str
  /-- Timestamp when cache was loaded -/
  loaded_at : Nat
deriving DecidableEq

/-- `TermMatch`; the source field `end` is a reserved word in Lean and is
called `stop` here. -/
structure TermMatch where
  /-- The matched term (original case from input) -/
  term : Str
  /-- Start index in the original string -/
  start : Nat
  /-- End index (source field `end`) in the original string -/
  stop : Nat
  /-- The dictionary ID for this term -/
  dictionaryId : Str
deriving DecidableEq

/-- `Map.get`. -/
def mapGet (m : List (Str × α)) (k : Str) : Option α :=
  (m.find? (fun kv => kv.1 == k)).map (fun kv => kv.2)

/-- `Map.set`: overwrite an existing key in place (JS `Map` keeps the
original insertion position), else append. -/
def mapSet (m : List (Str × α)) (k : Str) (v : α) : List (Str × α) :=
  match m with
  | [] => [(k, v)]
  | kv :: rest => if kv.1 == k then (k, v) :: rest else kv :: mapSet rest k v

/-- `Map.has`. -/
def mapHas (m : List (Str × α)) (k : Str) : Bool :=
  (mapGet m k).isSome

/-- `Map.delete`. -/
def mapDelete (m : List (Str × α)) (k : Str) : List (Str × α) :=
  m.filter (fun kv => !(kv.1 == k))

/-- Case-insensitive literal match of `term` against `text` at offset `p`
(the pattern is the `escapeRegex`-escaped term, hence a literal). -/
def matchesAt (text term : Str) (p : Nat) : Bool :=
  isPrefixOfStr (toLowerStr term) (toLowerStr (text.drop p))

/-- Full occurrence test for the regex `\b<term>\b` (flags `gi`) at `p`. -/
def occursAt (text term : Str) (p : Nat) : Bool :=
  boundaryAt text p && boundaryAt text (p + term.length) && matchesAt text term p

/-- `regex.exec` with `lastIndex = i`: leftmost occurrence at offset ≥ `i`. -/
def execFrom (text term : Str) (i : Nat) : Option Nat :=
  (List.range (text.length + 1)).find? (fun p => i ≤ p && occursAt text term p)

/-- The `while ((match = regex.exec(text)) !== null)` loop: successive
occurrences with `lastIndex` advanced past each match.  The JS loop never
terminates when `term` is empty (an empty match does not advance
`lastIndex`); the model makes that case visible as fuel exhaustion
(`none`).  Dictionary texts are validated nonempty
(`dictionaryCreateSchema`: `z.string().min(1)`), and for a nonempty term
the fuel `text.length + 2` used below is proved sufficient. -/
def execLoop (text term : Str) (lastIndex fuel : Nat) : Option (List Nat) :=
  match fuel with
  | 0 => none
  | fuel + 1 =>
    match execFrom text term lastIndex with
    | none => some []
    | some p => (execLoop text term (p + term.length) fuel).map (fun ps => p :: ps)

/-- All positions the exec loop reports for one term. -/
def findOccurrences (text term : Str) : List Nat :=
  (execLoop text term 0 (text.length + 2)).getD []

/-- Check if a range overlaps with any already-matched range
(`start < range.end && end > range.start`). -/
def overlaps (usedRanges : List (Nat × Nat)) (start stop : Nat) : Bool :=
  usedRanges.any (fun range => start < range.2 && stop > range.1)

/-- `text.slice(start, stop)` (for `start ≤ stop ≤ text.length`). -/
def slice (text : Str) (start stop : Nat) : Str :=
  (text.drop start).take (stop - start)

/-- Inner loop of `findDictionaryTerms`: walk the occurrences of one term,
skipping those that overlap an already-claimed range and recording the
rest (the match carries the original-case slice of `text`). -/
def processTerm (text termLower dictId : Str) :
    List Nat → List TermMatch → List (Nat × Nat) → List TermMatch × List (Nat × Nat)
  | [], ms, usedRanges => (ms, usedRanges)
  | p :: ps, ms, usedRanges =>
    if overlaps usedRanges p (p + termLower.length) then
      processTerm text termLower dictId ps ms usedRanges
    else
      processTerm text termLower dictId ps
        (ms ++ [⟨slice text p (p + termLower.length), p, p + termLower.length, dictId⟩])
        (usedRanges ++ [(p, p + termLower.length)])

/-- Outer loop of `findDictionaryTerms`: iterate the terms (longest
first), looking the owning dictionary id up in `text_map` (the source
uses a non-null assertion there; absent keys are modelled by `getD []`). -/
def processTerms (text : Str) (cache : ProjectDictionaryCache) :
    List Str → List TermMatch → List (Nat × Nat) → List TermMatch × List (Nat × Nat)
  | [], ms, usedRanges => (ms, usedRanges)
  | t :: ts, ms, usedRanges =>
    let acc := processTerm text t ((mapGet cache.text_map t).getD [])
      (findOccurrences text t) ms usedRanges
    processTerms text cache ts acc.1 acc.2

/-- Stable insertion into a list sorted by ascending `start`. -/
def insertByStart (m : TermMatch) : List TermMatch → List TermMatch
  | [] => [m]
  | x :: xs => if x.start < m.start then x :: insertByStart m xs else m :: x :: xs

/-- The stable JS sort `matches.sort((a, b) => a.start - b.start)`. -/
def sortByStart : List TermMatch → List TermMatch
  | [] => []
  | m :: rest => insertByStart m (sortByStart rest)

/-- `findDictionaryTerms(text, cache)`. -/
def findDictionaryTerms (text : Str) (cache : ProjectDictionaryCache) : List TermMatch :=
  sortByStart (processTerms text cache cache.terms_sorted [] []).1

/-- Stable insertion into a list sorted by descending `start`. -/
def insertByStartDesc (m : TermMatch) : List TermMatch → List TermMatch
  | [] => [m]
  | x :: xs => if m.start < x.start then x :: insertByStartDesc m xs else m :: x :: xs

/-- The stable JS sort `[...matches].sort((a, b) => b.start - a.start)`. -/
def sortByStartDesc : List TermMatch → List TermMatch
  | [] => []
  | m :: rest => insertByStartDesc m (sortByStartDesc rest)

/-- The marker `\x7b\x7b<term>\x7d\x7d` wrapped around a matched term. -/
def bracketed (term : Str) : Str :=
  '\x7b' :: '\x7b' :: (term ++ ['\x7d', '\x7d'])

/-- `wrapTermsWithBrackets(text, matches)`: replace each matched range
with its marker, processing ranges from highest offset to lowest. -/
def wrapTermsWithBrackets (text : Str) (ms : List TermMatch) : Str :=
  (sortByStartDesc ms).foldl
    (fun result m => result.take m.start ++ bracketed m.term ++ result.drop m.stop)
    text

/-- Body of the `unwrapAndTranslate` loop for a single match: locate the
marker case-insensitively; if absent skip, else splice in the dictionary
translation for the target language, falling back to the original term. -/
def unwrapOne (cache : ProjectDictionaryCache) (targetLanguage : Str)
    (result : Str) (m : TermMatch) : Str :=
  let bracketedTerm := bracketed m.term
  match indexOfStr (toLowerStr result) (toLowerStr bracketedTerm) with
  | none => result
  | some pos =>
    let replacement :=
      match mapGet cache.dictionary_map m.dictionaryId with
      | some langMap =>
        match mapGet langMap targetLanguage with
        | some t => t
        | none => m.term
      | none => m.term
    result.take pos ++ replacement ++ result.drop (pos + bracketedTerm.length)

/-- `unwrapAndTranslate(translatedText, matches, targetLanguage, cache)`. -/
def unwrapAndTranslate (translatedText : Str) (ms : List TermMatch)
    (targetLanguage : Str) (cache : ProjectDictionaryCache) : Str :=
  ms.foldl (unwrapOne cache targetLanguage) translatedText

/-- The nested dictionary lookup `dictionary_map.get(id)?.get(lang)`. -/
def lookup2 (dm : List (Str × List (Str × Str))) (g l : Str) : Option Str :=
  match mapGet dm g with
  | none => none
  | some langMap => mapGet langMap l

/-- Body of the row loop in `loadProjectCache`: record the translation in
`dictionary_map` (overwriting any previous text for the same
(dictionary_id, language_code) pair, as `Map.set` does) and record the
lowercased text in `text_map` only if not already present. -/
def buildStep (acc : List (Str × List (Str × Str)) × List (Str × Str))
    (entry : EntryRow) : List (Str × List (Str × Str)) × List (Str × Str) :=
  let dictionary_map :=
    mapSet acc.1 entry.dictionary_id
      (mapSet ((mapGet acc.1 entry.dictionary_id).getD []) entry.language_code entry.text)
  let lowerText := toLowerStr entry.text
  let text_map :=
    if mapHas acc.2 lowerText then acc.2 else mapSet acc.2 lowerText entry.dictionary_id
  (dictionary_map, text_map)

/-- Stable insertion into a list sorted by descending length. -/
def insertByLenDesc (t : Str) : List Str → List Str
  | [] => [t]
  | x :: xs => if t.length < x.length then x :: insertByLenDesc t xs else t :: x :: xs

/-- The stable JS sort `.sort((a, b) => b.length - a.length)`. -/
def sortByLenDesc : List Str → List Str
  | [] => []
  | t :: rest => insertByLenDesc t (sortByLenDesc rest)

/-- The pure part of `loadProjectCache`: build the Term Index from the
rows the Dictionary Store query returned, at wall-clock time `now`. -/
def buildProjectCache (entries : List EntryRow) (now : Nat) : ProjectDictionaryCache :=
  let maps := entries.foldl buildStep ([], [])
  { dictionary_map := maps.1
    text_map := maps.2
    terms_sorted := sortByLenDesc (maps.2.map (fun kv => kv.1))
    loaded_at := now }

/-- Default value of `CACHE_TTL_MS` (the `DICTIONARY_CACHE_TTL_MS`
environment variable unset): 5 minutes. -/
def CACHE_TTL_MS : Nat := 300000

/-- `isCacheExpired`: `Date.now() - cache.loaded_at > ttl`, with the
current time and the configured TTL passed explicitly. -/
def isCacheExpired (now ttl : Nat) (cache : ProjectDictionaryCache) : Bool :=
  ttl < now - cache.loaded_at

/-- The module-level `projectCaches` map. -/
structure CacheState where
  projectCaches : List (Str × ProjectDictionaryCache)
deriving DecidableEq

/-- `getCacheKey`: the template literal `entityId:projectId`. -/
def getCacheKey (entityId projectId : Str) : Str :=
  entityId ++ ':' :: projectId

/-- `invalidateProjectCache`: delete the scope's entry. -/
def invalidateProjectCache (entityId projectId : Str) (st : CacheState) : CacheState :=
  ⟨mapDelete st.projectCaches (getCacheKey entityId projectId)⟩

/-- The branch condition of `getProjectCache`
(`!existing || isCacheExpired(existing)`): whether this `get` rebuilds
from the Dictionary Store. -/
def cacheRebuilds (now ttl : Nat) (key : Str) (st : CacheState) : Bool :=
  match mapGet st.projectCaches key with
  | none => true
  | some existing => isCacheExpired now ttl existing

/-- `getProjectCache`, with the Dictionary Store modelled as the function
`store` from (entityId, projectId) to the rows its query returns, and the
wall clock passed as `now`. -/
def getProjectCache (store : Str → Str → List EntryRow) (now ttl : Nat)
    (entityId projectId : Str) (st : CacheState) :
    ProjectDictionaryCache × CacheState :=
  let key := getCacheKey entityId projectId
  match mapGet st.projectCaches key with
  | some existing =>
    if isCacheExpired now ttl existing then
      let cache := buildProjectCache (store entityId projectId) now
      (cache, ⟨mapSet st.projectCaches key cache⟩)
    else
      (existing, st)
  | none =>
    let cache := buildProjectCache (store entityId projectId) now
    (cache, ⟨mapSet st.projectCaches key cache⟩)

/-- Well-formedness of a Term Index as `loadProjectCache` builds it:
every entry of `terms_sorted` is a lowercase-fixed key of `text_map`. -/
def wfCache (cache : ProjectDictionaryCache) : Prop :=
  ∀ t ∈ cache.terms_sorted, toLowerStr t = t ∧ (mapGet cache.text_map t).isSome = true

/-- Concrete index for the longest-match example: terms
"New York" (group g1) and "York" (group g2). -/
def cacheNY : ProjectDictionaryCache :=
  buildProjectCache
    [⟨"g1".data, "en".data, "New York".data⟩, ⟨"g2".data, "en".data, "York".data⟩] 0

/-- Concrete index for the whole-word example: single term "app". -/
def cacheApp : ProjectDictionaryCache :=
  buildProjectCache [⟨"g1".data, "en".data, "app".data⟩] 0

/-- Concrete index holding the term "c++" (a term whose last character is
not a word character; admissible, the schema only requires nonempty). -/
def cacheCpp : ProjectDictionaryCache :=
  buildProjectCache [⟨"g1".data, "en".data, "c++".data⟩] 0

/-- Concrete mixed index holding both the word-edged term "app" and the
non-word-edged term "c++". -/
def cacheAppCpp : ProjectDictionaryCache :=
  buildProjectCache
    [⟨"g1".data, "en".data, "app".data⟩, ⟨"g2".data, "en".data, "c++".data⟩] 0

/-- Concrete index for the round-trip example: group g1 with English text
"hello" and Spanish text "Hola". -/
def cacheHello : ProjectDictionaryCache :=
  buildProjectCache
    [⟨"g1".data, "en".data, "hello".data⟩, ⟨"g1".data, "es".data, "Hola".data⟩] 0

/-- Two matches' half-open character ranges `[start, end)` intersect. -/
def rangesIntersect (a b : TermMatch) : Prop :=
  ∃ i, (a.start ≤ i ∧ i < a.stop) ∧ (b.start ≤ i ∧ i < b.stop)

/-- A term whose first and last characters are word characters. -/
def wordEdged (t : Str) : Bool :=
  !t.isEmpty && isWordChar (t[0]?.getD ' ') && isWordChar (t[t.length - 1]?.getD ' ')

/-!  ## Association-list (JS `Map`) lemmas  -/

theorem mapGet_nil (k : Str) : mapGet ([] : List (Str × α)) k = none := rfl

theorem mapGet_cons (kv : Str × α) (rest : List (Str × α)) (k : Str) :
    mapGet (kv :: rest) k = if kv.1 = k then some kv.2 else mapGet rest k := by
  by_cases h : kv.1 = k
  · rw [if_pos h]
    unfold mapGet
    rw [List.find?_cons_of_pos _ (by simpa using h)]
    rfl
  · rw [if_neg h]
    unfold mapGet
    rw [List.find?_cons_of_neg _ (by simpa using h)]

theorem mapGet_mapSet_self (m : List (Str × α)) (k : Str) (v : α) :
    mapGet (mapSet m k v) k = some v := by
  induction m with
  | nil => simp [mapSet, mapGet_cons]
  | cons kv rest ih =>
    by_cases h : kv.1 = k
    · simp [mapSet, h, mapGet_cons]
    · simp [mapSet, h, mapGet_cons, ih]

theorem mapGet_mapSet_ne (m : List (Str × α)) (k k' : Str) (v : α) (h : k' ≠ k) :
    mapGet (mapSet m k v) k' = mapGet m k' := by
  induction m with
  | nil => simp [mapSet, mapGet_cons, mapGet_nil, Ne.symm h]
  | cons kv rest ih =>
    by_cases hk : kv.1 = k
    · subst hk
      simp [mapSet, mapGet_cons, Ne.symm h, fun hh : kv.1 = k' => h hh.symm]
    · simp [mapSet, hk, mapGet_cons, ih]

theorem mapGet_mapDelete_self (m : List (Str × α)) (k : Str) :
    mapGet (mapDelete m k) k = none := by
  induction m with
  | nil => rfl
  | cons kv rest ih =>
    by_cases h : kv.1 = k
    · simpa [mapDelete, List.filter_cons, h] using ih
    · simpa [mapDelete, List.filter_cons, h, mapGet_cons] using ih

/-!  ## Sorting lemmas  -/

theorem insertByStart_perm (m : TermMatch) (l : List TermMatch) :
    (insertByStart m l).Perm (m :: l) := by
  induction l with
  | nil => simp [insertByStart]
  | cons x xs ih =>
    by_cases h : x.start < m.start
    · simpa [insertByStart, h] using (ih.cons x).trans (List.Perm.swap m x xs)
    · simp [insertByStart, h]

theorem sortByStart_perm (l : List TermMatch) : (sortByStart l).Perm l := by
  induction l with
  | nil => simp [sortByStart]
  | cons m rest ih =>
    exact (insertByStart_perm m (sortByStart rest)).trans (ih.cons m)

theorem insertByStart_pairwise (m : TermMatch) (l : List TermMatch)
    (h : l.Pairwise (fun a b => a.start ≤ b.start)) :
    (insertByStart m l).Pairwise (fun a b => a.start ≤ b.start) := by
  induction l with
  | nil => simp [insertByStart]
  | cons x xs ih =>
    rcases List.pairwise_cons.mp h with ⟨hx, hxs⟩
    by_cases hlt : x.start < m.start
    · simp only [insertByStart, hlt, if_true]
      refine List.pairwise_cons.mpr ⟨?_, ih hxs⟩
      intro y hy
      have hy' := (insertByStart_perm m xs).mem_iff.mp hy
      rcases List.mem_cons.mp hy' with rfl | hmem
      · omega
      · exact hx y hmem
    · simp only [insertByStart, hlt, if_false]
      refine List.pairwise_cons.mpr ⟨?_, h⟩
      intro y hy
      rcases List.mem_cons.mp hy with rfl | hmem
      · omega
      · have := hx y hmem
        omega

theorem sortByStart_pairwise (l : List TermMatch) :
    (sortByStart l).Pairwise (fun a b => a.start ≤ b.start) := by
  induction l with
  | nil => simp [sortByStart]
  | cons m rest ih => exact insertByStart_pairwise m (sortByStart rest) ih

/-!  ## Occurrence-scanner lemmas  -/

theorem isPrefixOfStr_length (pre l : Str) (h : isPrefixOfStr pre l = true) :
    pre.length ≤ l.length := by
  induction pre generalizing l with
  | nil => simp
  | cons a as ih =>
    cases l with
    | nil => simp [isPrefixOfStr] at h
    | cons b bs =>
      simp only [isPrefixOfStr, Bool.and_eq_true] at h
      simpa using ih bs h.2

theorem isPrefixOfStr_append (pre l : Str) :
    isPrefixOfStr pre l = true ↔ ∃ rest, l = pre ++ rest := by
  induction pre generalizing l with
  | nil => simp [isPrefixOfStr]
  | cons a as ih =>
    cases l with
    | nil =>
      simp [isPrefixOfStr]
    | cons b bs =>
      simp only [isPrefixOfStr, Bool.and_eq_true, beq_iff_eq, ih, List.cons_append,
        List.cons.injEq]
      constructor
      · rintro ⟨rfl, rest, rfl⟩
        exact ⟨rest, rfl, rfl⟩
      · rintro ⟨rest, rfl, rfl⟩
        exact ⟨rfl, rest, rfl⟩

theorem matchesAt_bound (text term : Str) (p : Nat) (hp : p ≤ text.length)
    (h : matchesAt text term p = true) :
    p + term.length ≤ text.length := by
  have := isPrefixOfStr_length _ _ h
  simp only [toLowerStr, List.length_map, List.length_drop] at this
  omega

theorem execFrom_some (text term : Str) (i p : Nat) (h : execFrom text term i = some p) :
    i ≤ p ∧ occursAt text term p = true ∧ p ≤ text.length := by
  have hp := List.find?_some h
  have hmem := List.mem_of_find?_eq_some h
  have hlt : p < text.length + 1 := List.mem_range.mp hmem
  simp only [Bool.and_eq_true, decide_eq_true_eq] at hp
  exact ⟨hp.1, hp.2, by omega⟩

theorem execLoop_mem (text term : Str) :
    ∀ fuel lastIndex ps, execLoop text term lastIndex fuel = some ps →
      ∀ p ∈ ps, occursAt text term p = true := by
  intro fuel
  induction fuel with
  | zero => intro lastIndex ps h; simp [execLoop] at h
  | succ fuel ih =>
    intro lastIndex ps h p hp
    unfold execLoop at h
    cases hfrom : execFrom text term lastIndex with
    | none =>
      simp only [hfrom] at h
      cases h
      simp at hp
    | some q =>
      simp only [hfrom] at h
      cases hrec : execLoop text term (q + term.length) fuel with
      | none => rw [hrec] at h; simp at h
      | some qs =>
        rw [hrec] at h
        simp only [Option.map_some', Option.some.injEq] at h
        subst h
        rcases List.mem_cons.mp hp with rfl | hmem
        · exact (execFrom_some _ _ _ _ hfrom).2.1
        · exact ih _ _ hrec p hmem

theorem findOccurrences_occursAt (text term : Str) (p : Nat)
    (h : p ∈ findOccurrences text term) : occursAt text term p = true := by
  unfold findOccurrences at h
  cases hloop : execLoop text term 0 (text.length + 2) with
  | none => rw [hloop] at h; simp at h
  | some ps =>
    rw [hloop] at h
    exact execLoop_mem text term _ 0 ps hloop p (by simpa using h)

theorem execLoop_total (text term : Str) (hne : term ≠ []) :
    ∀ fuel i, text.length + 1 ≤ i + fuel → 1 ≤ fuel →
      (execLoop text term i fuel).isSome = true := by
  intro fuel
  induction fuel with
  | zero => intro i _ h; omega
  | succ fuel ih =>
    intro i hbound _
    unfold execLoop
    cases hfrom : execFrom text term i with
    | none => simp [hfrom]
    | some p =>
      simp only [hfrom]
      rcases execFrom_some _ _ _ _ hfrom with ⟨hip, hocc, hplen⟩
      have hmatch : matchesAt text term p = true := by
        simp only [occursAt, Bool.and_eq_true] at hocc
        exact hocc.2
      have hfit : p + term.length ≤ text.length := matchesAt_bound _ _ _ hplen hmatch
      have hlen : 1 ≤ term.length := by
        cases term with
        | nil => exact absurd rfl hne
        | cons c cs => simp
      have := ih (p + term.length) (by omega) (by omega)
      simpa using this

/-!  ## Matcher invariants  -/

theorem processTerm_inv (text t d : Str) :
    ∀ ps ms (used : List (Nat × Nat)),
      used = ms.map (fun m => (m.start, m.stop)) →
      used.Pairwise (fun r s => (decide (r.1 < s.2) && decide (s.1 < r.2)) = false) →
      (processTerm text t d ps ms used).2 =
        (processTerm text t d ps ms used).1.map (fun m => (m.start, m.stop)) ∧
      (processTerm text t d ps ms used).2.Pairwise
        (fun r s => (decide (r.1 < s.2) && decide (s.1 < r.2)) = false) := by
  intro ps
  induction ps with
  | nil => intro ms used hmap hpw; exact ⟨hmap, hpw⟩
  | cons p ps ih =>
    intro ms used hmap hpw
    rw [processTerm]
    split
    · exact ih ms used hmap hpw
    · next hov =>
      apply ih
      · simp [hmap]
      · refine List.pairwise_append.mpr ⟨hpw, by simp, ?_⟩
        intro a ha b hb
        simp only [List.mem_singleton] at hb
        subst hb
        have hfa : ∀ r ∈ used, ¬(p < r.2 ∧ p + t.length > r.1) := by
          simpa [overlaps, List.any_eq_false] using hov
        have := hfa a ha
        simp only [Bool.and_eq_false_iff, decide_eq_false_iff_not]
        omega

theorem processTerms_inv (text : Str) (cache : ProjectDictionaryCache) :
    ∀ ts ms (used : List (Nat × Nat)),
      used = ms.map (fun m => (m.start, m.stop)) →
      used.Pairwise (fun r s => (decide (r.1 < s.2) && decide (s.1 < r.2)) = false) →
      (processTerms text cache ts ms used).2 =
        (processTerms text cache ts ms used).1.map (fun m => (m.start, m.stop)) ∧
      (processTerms text cache ts ms used).2.Pairwise
        (fun r s => (decide (r.1 < s.2) && decide (s.1 < r.2)) = false) := by
  intro ts
  induction ts with
  | nil => intro ms used hmap hpw; exact ⟨hmap, hpw⟩
  | cons t ts ih =>
    intro ms used hmap hpw
    rw [processTerms]
    have h := processTerm_inv text t ((mapGet cache.text_map t).getD [])
      (findOccurrences text t) ms used hmap hpw
    exact ih _ _ h.1 h.2

theorem processTerm_mem (text t d : Str) :
    ∀ ps ms (used : List (Nat × Nat)) m,
      m ∈ (processTerm text t d ps ms used).1 →
      m ∈ ms ∨ ∃ p ∈ ps, m = ⟨slice text p (p + t.length), p, p + t.length, d⟩ := by
  intro ps
  induction ps with
  | nil => intro ms used m h; exact Or.inl h
  | cons p ps ih =>
    intro ms used m h
    rw [processTerm] at h
    split at h
    · rcases ih ms used m h with hms | ⟨q, hq, rfl⟩
      · exact Or.inl hms
      · exact Or.inr ⟨q, List.mem_cons_of_mem _ hq, rfl⟩
    · rcases ih _ _ m h with hms | ⟨q, hq, rfl⟩
      · rcases List.mem_append.mp hms with hms | hm
        · exact Or.inl hms
        · simp only [List.mem_singleton] at hm
          exact Or.inr ⟨p, List.mem_cons_self _ _, hm⟩
      · exact Or.inr ⟨q, List.mem_cons_of_mem _ hq, rfl⟩

theorem processTerms_mem (text : Str) (cache : ProjectDictionaryCache) :
    ∀ ts ms (used : List (Nat × Nat)) m,
      m ∈ (processTerms text cache ts ms used).1 →
      m ∈ ms ∨ ∃ t ∈ ts, ∃ p ∈ findOccurrences text t,
        m = ⟨slice text p (p + t.length), p, p + t.length,
          (mapGet cache.text_map t).getD []⟩ := by
  intro ts
  induction ts with
  | nil => intro ms used m h; exact Or.inl h
  | cons t ts ih =>
    intro ms used m h
    rw [processTerms] at h
    rcases ih _ _ m h with hacc | ⟨t', ht', p, hp, rfl⟩
    · rcases processTerm_mem text t _ _ ms used m hacc with hms | ⟨p, hp, rfl⟩
      · exact Or.inl hms
      · exact Or.inr ⟨t, List.mem_cons_self _ _, p, hp, rfl⟩
    · exact Or.inr ⟨t', List.mem_cons_of_mem _ ht', p, hp, rfl⟩

theorem findDictionaryTerms_mem (text : Str) (cache : ProjectDictionaryCache)
    (m : TermMatch) (h : m ∈ findDictionaryTerms text cache) :
    ∃ t ∈ cache.terms_sorted, ∃ p, occursAt text t p = true ∧
      m = ⟨slice text p (p + t.length), p, p + t.length,
        (mapGet cache.text_map t).getD []⟩ := by
  unfold findDictionaryTerms at h
  have h' := (sortByStart_perm _).mem_iff.mp h
  rcases processTerms_mem text cache cache.terms_sorted [] [] m h' with hnil | ⟨t, ht, p, hp, rfl⟩
  · simp at hnil
  · exact ⟨t, ht, p, findOccurrences_occursAt text t p hp, rfl⟩

theorem rangesIntersect_symm {a b : TermMatch} (h : rangesIntersect a b) :
    rangesIntersect b a := by
  rcases h with ⟨i, ha, hb⟩
  exact ⟨i, hb, ha⟩

/-!  ## Claim C1  -/

/-- C1.  For every input text and every Term Index, the list returned by
`findDictionaryTerms` is sorted by ascending start offset, and no two of
its matches have intersecting character ranges `[start, end)`. -/
theorem findDictionaryTerms_sorted_nonoverlap (text : Str) (cache : ProjectDictionaryCache) :
    (findDictionaryTerms text cache).Pairwise (fun a b => a.start ≤ b.start) ∧
    (findDictionaryTerms text cache).Pairwise (fun a b => ¬ rangesIntersect a b) := by
  refine ⟨sortByStart_pairwise _, ?_⟩
  have hinv := processTerms_inv text cache cache.terms_sorted [] [] rfl (by simp)
  have hpw : (processTerms text cache cache.terms_sorted [] []).1.Pairwise
      (fun a b => (decide (a.start < b.stop) && decide (b.start < a.stop)) = false) := by
    have := hinv.2
    rw [hinv.1] at this
    exact (List.pairwise_map.mp this)
  have hpw2 : (processTerms text cache cache.terms_sorted [] []).1.Pairwise
      (fun a b => ¬ rangesIntersect a b) := by
    refine hpw.imp ?_
    intro a b hab hint
    rcases hint with ⟨i, ⟨ha1, ha2⟩, hb1, hb2⟩
    simp only [Bool.and_eq_false_iff, decide_eq_false_iff_not] at hab
    omega
  exact ((sortByStart_perm _).pairwise_iff
    (fun hab hint => hab (rangesIntersect_symm hint))).mpr hpw2

/-!  ## Character-level lemmas for whole-word matching  -/

theorem isWordChar_toLowerChar (c : Char) : isWordChar (toLowerChar c) = isWordChar c := by
  unfold toLowerChar
  split <;> rfl

theorem matchesAt_decompose (text term : Str) (p : Nat) (h : matchesAt text term p = true) :
    ∃ rest, (toLowerStr text).drop p = toLowerStr term ++ rest := by
  unfold matchesAt at h
  rcases (isPrefixOfStr_append _ _).mp h with ⟨rest, hrest⟩
  refine ⟨rest, ?_⟩
  simp only [toLowerStr] at hrest ⊢
  rw [← List.map_drop]
  exact hrest

/-- The lowercased slice a match records equals the lowercased term it was
scanned for. -/
theorem toLowerStr_slice (text term : Str) (p : Nat) (h : matchesAt text term p = true) :
    toLowerStr (slice text p (p + term.length)) = toLowerStr term := by
  rcases matchesAt_decompose text term p h with ⟨rest, hrest⟩
  have : toLowerStr (slice text p (p + term.length)) =
      ((toLowerStr text).drop p).take term.length := by
    unfold slice toLowerStr
    rw [List.map_take, List.map_drop]
    congr 1
    omega
  rw [this, hrest]
  have hlen : term.length = (toLowerStr term).length := by simp [toLowerStr]
  rw [hlen, List.take_left]

theorem wordAt_start (text term : Str) (p : Nat) (c : Char) (hm : matchesAt text term p = true)
    (hc : term[0]? = some c) : wordAt text p = isWordChar c := by
  rcases matchesAt_decompose text term p hm with ⟨rest, hrest⟩
  have h0 : (toLowerStr text)[p]? = some (toLowerChar c) := by
    have e0 : (toLowerStr text)[p]? = ((toLowerStr text).drop p)[0]? := by
      rw [List.getElem?_drop]
      congr 1
    rw [e0, hrest]
    cases term with
    | nil => simp at hc
    | cons a as =>
      simp only [List.getElem?_cons_zero, Option.some.injEq] at hc
      subst hc
      simp [toLowerStr]
  have h1 : (text[p]?.map toLowerChar) = some (toLowerChar c) := by
    rw [← h0]
    simp [toLowerStr, List.getElem?_map]
  cases htp : text[p]? with
  | none => rw [htp] at h1; simp at h1
  | some d =>
    rw [htp] at h1
    simp only [Option.map_some', Option.some.injEq] at h1
    unfold wordAt
    rw [htp]
    show isWordChar d = isWordChar c
    rw [← isWordChar_toLowerChar d, h1, isWordChar_toLowerChar]

theorem wordAt_last (text term : Str) (p : Nat) (c : Char) (hm : matchesAt text term p = true)
    (hc : term[term.length - 1]? = some c) :
    wordAt text (p + term.length - 1) = isWordChar c := by
  rcases matchesAt_decompose text term p hm with ⟨rest, hrest⟩
  have hne : term ≠ [] := by
    intro h; subst h; simp at hc
  have hlen : 1 ≤ term.length := by
    cases term with
    | nil => exact absurd rfl hne
    | cons a as => simp
  have h0 : (toLowerStr text)[p + term.length - 1]? = some (toLowerChar c) := by
    have e1 : (toLowerStr text)[p + term.length - 1]? =
        ((toLowerStr text).drop p)[term.length - 1]? := by
      rw [List.getElem?_drop]
      congr 1
      omega
    rw [e1, hrest]
    have hlt : term.length - 1 < (toLowerStr term).length := by
      simp only [toLowerStr, List.length_map]
      omega
    rw [List.getElem?_append, if_pos hlt]
    simp only [toLowerStr, List.getElem?_map, hc, Option.map_some']
  have h1 : (text[p + term.length - 1]?.map toLowerChar) = some (toLowerChar c) := by
    rw [← h0]
    simp [toLowerStr, List.getElem?_map]
  cases htp : text[p + term.length - 1]? with
  | none => rw [htp] at h1; simp at h1
  | some d =>
    rw [htp] at h1
    simp only [Option.map_some', Option.some.injEq] at h1
    unfold wordAt
    rw [htp]
    show isWordChar d = isWordChar c
    rw [← isWordChar_toLowerChar d, h1, isWordChar_toLowerChar]

/-!  ## Claims C2 - C5  -/

/-- C2.  For a Term Index containing exactly the terms "New York" and
"York", `findDictionaryTerms` on "Visit New York today" returns exactly
one match, with surface text "New York": the longer term claims its range
first and the shorter term's overlapping occurrence is discarded. -/
theorem longestMatch_newYork :
    findDictionaryTerms ("Visit New York today".data) cacheNY =
      [⟨"New York".data, 6, 14, "g1".data⟩] := by decide

/-- C3, counterexample.  For the term "c++" (last character not a word
character) and input "c++x", the code reports the occurrence `[0, 3)`
even though the character after it, at offset 3, is the word character
`x`: a reported occurrence is not always bounded on both sides by
non-word characters or string edges. -/
theorem wholeWord_counterexample_cpp :
    findDictionaryTerms ("c++x".data) cacheCpp = [⟨"c++".data, 0, 3, "g1".data⟩] ∧
    wordAt ("c++x".data) 3 = true := by decide

/-- C3, amended.  Each occurrence reported by `findDictionaryTerms` whose
term has word characters as its first and last characters (equivalently:
whose matched surface text does, since the surface text differs from the
term only by letter case and `isWordChar` is case-invariant) is bounded
on both sides by non-word characters or the string edges, so no such
match fires inside a longer alphanumeric run; this holds per match, also
in an index that mixes word-edged and non-word-edged terms.  In
particular the term "app" produces no match in "application" and exactly
one match "app" in "open the app now". -/
theorem wholeWord_amended :
    (∀ (text : Str) (cache : ProjectDictionaryCache),
      ∀ m ∈ findDictionaryTerms text cache,
        wordEdged m.term = true →
        (0 < m.start → wordAt text (m.start - 1) = false) ∧
        wordAt text m.stop = false) ∧
    findDictionaryTerms ("application".data) cacheApp = [] ∧
    (findDictionaryTerms ("open the app now".data) cacheApp).map (fun m => m.term) =
      ["app".data] := by
  refine ⟨?_, by decide, by decide⟩
  intro text cache m hm hedge
  rcases findDictionaryTerms_mem text cache m hm with ⟨t, ht, p, hocc, rfl⟩
  obtain ⟨⟨hb0, hbL⟩, hmat⟩ : (boundaryAt text p = true ∧
      boundaryAt text (p + t.length) = true) ∧ matchesAt text t p = true := by
    simpa only [occursAt, Bool.and_eq_true] using hocc
  have hplen : t.length ≤ text.length - p := by
    have := isPrefixOfStr_length _ _ hmat
    simpa only [toLowerStr, List.length_map, List.length_drop] using this
  have hslen : (slice text p (p + t.length)).length = t.length := by
    simp only [slice, List.length_take, List.length_drop]
    omega
  have hedge2 : wordEdged (slice text p (p + t.length)) = true := hedge
  simp only [wordEdged, Bool.and_eq_true] at hedge2
  obtain ⟨⟨hne2, h0w⟩, hLw⟩ := hedge2
  have hlenpos : 0 < (slice text p (p + t.length)).length := by
    cases hsl : slice text p (p + t.length) with
    | nil => rw [hsl] at hne2; simp at hne2
    | cons a as => simp [hsl]
  have hlen1 : 1 ≤ t.length := by omega
  have hchar : ∀ i, i < t.length → text[p + i]? = (slice text p (p + t.length))[i]? := by
    intro i hi
    show text[p + i]? = ((text.drop p).take (p + t.length - p))[i]?
    rw [List.getElem?_take_of_lt (by omega), List.getElem?_drop]
  rw [hslen] at hLw
  cases ht0 : (slice text p (p + t.length))[0]? with
  | none =>
    rw [List.getElem?_eq_none_iff] at ht0
    omega
  | some c0 =>
    cases htL : (slice text p (p + t.length))[t.length - 1]? with
    | none =>
      rw [List.getElem?_eq_none_iff] at htL
      omega
    | some cL =>
      have hc0w : isWordChar c0 = true := by
        rw [ht0] at h0w
        simpa using h0w
      have hcLw : isWordChar cL = true := by
        rw [htL] at hLw
        simpa using hLw
      have w0 : wordAt text p = true := by
        unfold wordAt
        have he : text[p]? = some c0 := by
          have := (hchar 0 (by omega)).trans ht0
          simpa using this
        rw [he]
        exact hc0w
      have wL : wordAt text (p + t.length - 1) = true := by
        unfold wordAt
        have he : text[p + t.length - 1]? = some cL := by
          have := (hchar (t.length - 1) (by omega)).trans htL
          rw [show p + t.length - 1 = p + (t.length - 1) by omega]
          exact this
        rw [he]
        exact hcLw
      constructor
      · intro hpos
        have hpos2 : 0 < p := hpos
        show wordAt text (p - 1) = false
        unfold boundaryAt at hb0
        rw [w0, if_neg (by omega : ¬ p = 0)] at hb0
        simpa using hb0
      · show wordAt text (p + t.length) = false
        unfold boundaryAt at hbL
        rw [if_neg (by omega : ¬ p + t.length = 0), wL] at hbL
        simpa using hbL

/-- Witness for the amended C3 at a concrete input, in an index that also
contains the non-word-edged term "c++": the match of "app" at `[9, 12)`
in "open the app now" is followed by a non-word position. -/
theorem wholeWord_amended_witness :
    wordAt ("open the app now".data) 12 = false :=
  (wholeWord_amended.1 ("open the app now".data) cacheAppCpp
    ⟨"app".data, 9, 12, "g1".data⟩ (by decide) (by decide)).2

/-- C4.  Every match returned by `findDictionaryTerms` carries the
original-case substring of the input at its range, and its dictionaryId
is the `text_map` (termOwner) entry for the lowercased matched term; in
particular the term "hello" matched in "Say Hello there" records the
surface text "Hello". -/
theorem casePreservation_owner :
    (∀ (text : Str) (cache : ProjectDictionaryCache), wfCache cache →
      ∀ m ∈ findDictionaryTerms text cache,
        m.term = slice text m.start m.stop ∧
        mapGet cache.text_map (toLowerStr m.term) = some m.dictionaryId) ∧
    (findDictionaryTerms ("Say Hello there".data) cacheHello).map (fun m => m.term) =
      ["Hello".data] := by
  refine ⟨?_, by decide⟩
  intro text cache hwf m hm
  rcases findDictionaryTerms_mem text cache m hm with ⟨t, ht, p, hocc, rfl⟩
  obtain ⟨hlow, hsome⟩ := hwf t ht
  have hmat : matchesAt text t p = true := by
    simp only [occursAt, Bool.and_eq_true] at hocc
    exact hocc.2
  refine ⟨rfl, ?_⟩
  show mapGet cache.text_map (toLowerStr (slice text p (p + t.length))) =
    some ((mapGet cache.text_map t).getD [])
  rw [toLowerStr_slice text t p hmat, hlow]
  cases hg : mapGet cache.text_map t with
  | none => rw [hg] at hsome; simp at hsome
  | some v => simp

/-- Witness for C4 at a concrete input: the match on "hello" in
"Say Hello there" records "Hello" and is owned by group g1. -/
theorem casePreservation_owner_witness :
    ("Hello".data : Str) = slice ("Say Hello there".data) 4 9 ∧
    mapGet cacheHello.text_map (toLowerStr ("Hello".data)) = some ("g1".data) :=
  (casePreservation_owner.1 ("Say Hello there".data) cacheHello
    (by unfold wfCache; decide)
    ⟨"Hello".data, 4, 9, "g1".data⟩ (by decide))

/-- C5.  Round trip: wrapping "Say Hello there" for its single match on
"Hello" yields the marker-wrapped text embedding the original-case
substring, and unwrapping that text against target language "es" (whose
dictionary translation for the match's group is "Hola") yields
"Say Hola there". -/
theorem roundTrip_hello :
    wrapTermsWithBrackets ("Say Hello there".data)
      (findDictionaryTerms ("Say Hello there".data) cacheHello) =
      "Say \x7b\x7bHello\x7d\x7d there".data ∧
    unwrapAndTranslate
      (wrapTermsWithBrackets ("Say Hello there".data)
        (findDictionaryTerms ("Say Hello there".data) cacheHello))
      (findDictionaryTerms ("Say Hello there".data) cacheHello)
      ("es".data) cacheHello =
      "Say Hola there".data := by decide

/-!  ## Claims C6 and C7  -/

/-- C6.  Unwrap processes the matches in the order they were produced;
for each match whose marker is located case-insensitively it splices in
the dictionary translation for the target language when one exists and
otherwise the original matched substring (marker stripped); a match whose
marker is absent is skipped silently, so unwrapping text from which every
marker has been removed returns that text unchanged. -/
theorem unwrap_marker_semantics :
    (∀ (text : Str) (ms : List TermMatch) (lang : Str) (cache : ProjectDictionaryCache),
      (∀ m ∈ ms, indexOfStr (toLowerStr text) (toLowerStr (bracketed m.term)) = none) →
      unwrapAndTranslate text ms lang cache = text) ∧
    (∀ (cache : ProjectDictionaryCache) (lang result : Str) (m : TermMatch) (pos : Nat)
      (tr : Str),
      indexOfStr (toLowerStr result) (toLowerStr (bracketed m.term)) = some pos →
      lookup2 cache.dictionary_map m.dictionaryId lang = some tr →
      unwrapOne cache lang result m =
        result.take pos ++ tr ++ result.drop (pos + (bracketed m.term).length)) ∧
    (∀ (cache : ProjectDictionaryCache) (lang result : Str) (m : TermMatch) (pos : Nat),
      indexOfStr (toLowerStr result) (toLowerStr (bracketed m.term)) = some pos →
      lookup2 cache.dictionary_map m.dictionaryId lang = none →
      unwrapOne cache lang result m =
        result.take pos ++ m.term ++ result.drop (pos + (bracketed m.term).length)) ∧
    (∀ (text : Str) (m : TermMatch) (rest : List TermMatch) (lang : Str)
      (cache : ProjectDictionaryCache),
      unwrapAndTranslate text (m :: rest) lang cache =
        unwrapAndTranslate (unwrapOne cache lang text m) rest lang cache) := by
  refine ⟨?_, ?_, ?_, fun _ _ _ _ _ => rfl⟩
  · intro text ms lang cache
    induction ms with
    | nil => intro _; rfl
    | cons m rest ih =>
      intro hnone
      have hstep : unwrapOne cache lang text m = text := by
        simp only [unwrapOne, hnone m (List.mem_cons_self _ _)]
      show unwrapAndTranslate (unwrapOne cache lang text m) rest lang cache = text
      rw [hstep]
      exact ih (fun m2 hm2 => hnone m2 (List.mem_cons_of_mem _ hm2))
  · intro cache lang result m pos tr hpos hlook
    unfold lookup2 at hlook
    cases hdm : mapGet cache.dictionary_map m.dictionaryId with
    | none => rw [hdm] at hlook; simp at hlook
    | some lm =>
      simp only [hdm] at hlook
      simp only [unwrapOne, hpos, hdm, hlook]
  · intro cache lang result m pos hpos hlook
    unfold lookup2 at hlook
    cases hdm : mapGet cache.dictionary_map m.dictionaryId with
    | none => simp only [unwrapOne, hpos, hdm]
    | some lm =>
      simp only [hdm] at hlook
      simp only [unwrapOne, hpos, hdm, hlook]

/-- Witness for C6 at a concrete input: unwrapping a text from which the
marker was removed entirely returns the text unchanged. -/
theorem unwrap_marker_semantics_witness :
    unwrapAndTranslate ("Say Hello there".data)
      [⟨"Hello".data, 4, 9, "g1".data⟩] ("es".data) cacheHello =
      "Say Hello there".data :=
  unwrap_marker_semantics.1 ("Say Hello there".data)
    [⟨"Hello".data, 4, 9, "g1".data⟩] ("es".data) cacheHello (by decide)

/-- C7.  The matcher is total on input texts: the empty string yields no
matches for every index; the escaped form of every term reads back as
exactly that literal term (so terms with regex-special characters are
safe patterns); and for every nonempty term the scan loop terminates
within its fuel on every input text. -/
theorem matcher_total_and_escaped :
    (∀ cache, findDictionaryTerms [] cache = []) ∧
    (∀ s : Str, parseLiteral (escapeRegex s) = some s) ∧
    (∀ (text term : Str), term ≠ [] →
      (execLoop text term 0 (text.length + 2)).isSome = true) := by
  refine ⟨?_, ?_, ?_⟩
  · intro cache
    have hocc : ∀ (t : Str) (p : Nat), occursAt [] t p = false := by
      intro t p
      simp [occursAt, boundaryAt, wordAt]
    have hfrom : ∀ (t : Str) (i : Nat), execFrom [] t i = none := by
      intro t i
      refine List.find?_eq_none.mpr ?_
      intro p hp
      simp [hocc]
    have hoccs : ∀ t : Str, findOccurrences [] t = [] := by
      intro t
      show (execLoop [] t 0 (List.length ([] : Str) + 2)).getD [] = []
      simp [execLoop, hfrom]
    have hproc : ∀ ts (ms : List TermMatch) (used : List (Nat × Nat)),
        processTerms [] cache ts ms used = (ms, used) := by
      intro ts
      induction ts with
      | nil => intro ms used; rfl
      | cons t ts ih =>
        intro ms used
        rw [processTerms]
        simp only [hoccs, processTerm]
        exact ih ms used
    show sortByStart (processTerms [] cache cache.terms_sorted [] []).1 = []
    rw [hproc]
    rfl
  · intro s
    induction s with
    | nil => rfl
    | cons c rest ih =>
      by_cases hs : isRegexSpecial c = true
      · simp only [escapeRegex, hs, if_true, parseLiteral, ih, Option.map_some']
      · have hs' : isRegexSpecial c = false := by
          simpa using hs
        have hcb : ¬ c = '\\' := by
          intro h
          subst h
          simp [isRegexSpecial] at hs'
        show parseLiteral (escapeRegex (c :: rest)) = some (c :: rest)
        rw [escapeRegex, if_neg hs, parseLiteral.eq_def]
        simp only [if_neg hcb, if_neg hs, ih, Option.map_some']
  · intro text term hne
    exact execLoop_total text term hne (text.length + 2) 0 (by omega) (by omega)

/-- Witness for C7 at a concrete input: the scan loop for the nonempty
term "b" over the text "a b" terminates within its fuel. -/
theorem matcher_total_and_escaped_witness :
    (execLoop ("a b".data) ("b".data) 0 5).isSome = true :=
  matcher_total_and_escaped.2.2 ("a b".data) ("b".data) (by decide)

/-!  ## Claims C8 and C9 (cache manager)  -/

/-- C8.  For every scope, after `invalidateProjectCache` the next
`getProjectCache` takes the rebuild branch and returns a Term Index
freshly built from the Dictionary Store rows, regardless of how much TTL
remained on the evicted entry. -/
theorem invalidate_forces_rebuild (store : Str → Str → List EntryRow)
    (now ttl : Nat) (entityId projectId : Str) (st : CacheState) :
    cacheRebuilds now ttl (getCacheKey entityId projectId)
      (invalidateProjectCache entityId projectId st) = true ∧
    (getProjectCache store now ttl entityId projectId
      (invalidateProjectCache entityId projectId st)).1 =
      buildProjectCache (store entityId projectId) now := by
  constructor
  · simp [cacheRebuilds, invalidateProjectCache, mapGet_mapDelete_self]
  · simp [getProjectCache, invalidateProjectCache, mapGet_mapDelete_self]

/-- C9.  A Term Index built at time T is rebuilt (the store re-queried)
by a `get` at `T + TTL + eps` for every `eps > 0`, and is not rebuilt by
a `get` at `T + TTL - eps` (the cached index is returned and the state is
unchanged); the TTL default `CACHE_TTL_MS` is five minutes (300000 ms). -/
theorem ttl_expiry (store : Str → Str → List EntryRow) (ttl : Nat)
    (entityId projectId : Str) (st : CacheState) (c : ProjectDictionaryCache)
    (T eps : Nat)
    (hget : mapGet st.projectCaches (getCacheKey entityId projectId) = some c)
    (hT : c.loaded_at = T) (heps : 0 < eps) :
    (cacheRebuilds (T + ttl + eps) ttl (getCacheKey entityId projectId) st = true ∧
     (getProjectCache store (T + ttl + eps) ttl entityId projectId st).1 =
       buildProjectCache (store entityId projectId) (T + ttl + eps)) ∧
    (cacheRebuilds (T + ttl - eps) ttl (getCacheKey entityId projectId) st = false ∧
     getProjectCache store (T + ttl - eps) ttl entityId projectId st = (c, st)) ∧
    CACHE_TTL_MS = 300000 := by
  have hexp1 : isCacheExpired (T + ttl + eps) ttl c = true := by
    simp only [isCacheExpired, hT, decide_eq_true_eq]
    omega
  have hexp2 : isCacheExpired (T + ttl - eps) ttl c = false := by
    simp only [isCacheExpired, hT, decide_eq_false_iff_not]
    omega
  refine ⟨⟨?_, ?_⟩, ⟨?_, ?_⟩, rfl⟩
  · simp [cacheRebuilds, hget, hexp1]
  · simp [getProjectCache, hget, hexp1]
  · simp [cacheRebuilds, hget, hexp2]
  · simp [getProjectCache, hget, hexp2]

/-- Witness for C9 at a concrete input: with TTL 5 and an index built at
time 0, a `get` at time `0 + 5 - 1` returns the cached index unchanged. -/
theorem ttl_expiry_witness :
    getProjectCache (fun _ _ => []) (0 + 5 - 1) 5 ("e".data) ("p".data)
      ⟨[(getCacheKey ("e".data) ("p".data), cacheNY)]⟩ =
      (cacheNY, ⟨[(getCacheKey ("e".data) ("p".data), cacheNY)]⟩) :=
  ((ttl_expiry (fun _ _ => []) 5 ("e".data) ("p".data)
      ⟨[(getCacheKey ("e".data) ("p".data), cacheNY)]⟩ cacheNY 0 1
      (by decide) rfl (by decide)).2.1).2

/-!  ## Claim C10 (index construction)  -/

theorem find?_append_eq (l1 l2 : List α) (p : α → Bool) :
    (l1 ++ l2).find? p =
      (match l1.find? p with
       | some a => some a
       | none => l2.find? p) := by
  induction l1 with
  | nil => simp
  | cons a l1 ih =>
    by_cases h : p a = true
    · simp [List.find?_cons_of_pos _ h]
    · have h' : ¬ p a = true := h
      simp [List.find?_cons_of_neg _ h', ih]

theorem lookup2_buildStep (acc : List (Str × List (Str × Str)) × List (Str × Str))
    (e : EntryRow) (g l : Str) :
    lookup2 (buildStep acc e).1 g l =
      if e.dictionary_id = g ∧ e.language_code = l then some e.text
      else lookup2 acc.1 g l := by
  unfold buildStep lookup2
  by_cases hdg : e.dictionary_id = g
  · subst hdg
    simp only [mapGet_mapSet_self]
    by_cases hll : e.language_code = l
    · subst hll
      simp only [mapGet_mapSet_self]
      simp
    · rw [mapGet_mapSet_ne _ _ _ _ (fun h => hll h.symm)]
      rw [if_neg (fun h => hll h.2)]
      cases hg : mapGet acc.1 e.dictionary_id with
      | none => simp [hg, mapGet_nil]
      | some lm => simp [hg]
  · simp only [mapGet_mapSet_ne _ _ _ _ (fun h => hdg h.symm)]
    rw [if_neg (fun h => hdg h.1)]

theorem lookup2_foldl (entries : List EntryRow)
    (acc : List (Str × List (Str × Str)) × List (Str × Str)) (g l : Str) :
    lookup2 ((entries.foldl buildStep acc).1) g l =
      (match entries.reverse.find?
          (fun e => e.dictionary_id == g && e.language_code == l) with
       | some a => some a.text
       | none => lookup2 acc.1 g l) := by
  induction entries generalizing acc with
  | nil => simp
  | cons e es ih =>
    rw [List.foldl_cons, ih, List.reverse_cons, find?_append_eq]
    cases hf : es.reverse.find? (fun e => e.dictionary_id == g && e.language_code == l) with
    | some a => rfl
    | none =>
      rw [lookup2_buildStep]
      by_cases hc : e.dictionary_id = g ∧ e.language_code = l
      · have : (fun e : EntryRow => e.dictionary_id == g && e.language_code == l) e = true := by
          simp [hc.1, hc.2]
        simp [List.find?_cons_of_pos _ this, hc]
      · have : ¬ (fun e : EntryRow => e.dictionary_id == g && e.language_code == l) e = true := by
          simpa [Bool.and_eq_true, not_and] using fun h1 h2 => hc ⟨h1, h2⟩
        simp [List.find?_cons_of_neg _ this, hc]

/-- C10.  For every input row list, the built `dictionary_map` assigns a
(dictionary-group id, language code) pair the text of the last such row
in iteration order (so at most one text per pair survives even when the
store's row-uniqueness contract is violated). -/
theorem dictionary_map_last_writer_wins (entries : List EntryRow) (now : Nat) (g l : Str) :
    lookup2 (buildProjectCache entries now).dictionary_map g l =
      (entries.reverse.find?
        (fun e => e.dictionary_id == g && e.language_code == l)).map
        (fun e => e.text) := by
  show lookup2 ((entries.foldl buildStep ([], [])).1) g l = _
  rw [lookup2_foldl]
  cases hf : entries.reverse.find? (fun e => e.dictionary_id == g && e.language_code == l) with
  | none => simp [lookup2, mapGet_nil]
  | some a => simp

end Whisperly
